import Mathlib

/-!
Verification of the IntuneBrew upload pipeline (`app_upload.py`).

Shallow embedding conventions:
* byte strings are `List Nat` (each entry a byte value);
* the AES-256 block cipher and HMAC-SHA-256, which the code takes from the
  `cryptography` library (not part of this repository), are modelled from the
  spec as abstract function parameters together with the algebraic facts the
  spec states about them (block permutation with an inverse; 32-byte tag);
* network and filesystem effects are modelled by explicit state passing:
  backend responses become input streams `Nat → Response`, the local
  filesystem becomes a list of paths.
-/

namespace AppUpload

/-- Padding step of `encrypt_file` (`app_upload.py` lines 210-215):
`if data_size % 16 != 0: file_data += bytes([padding_size] * padding_size)`
where `padding_size = 16 - data_size % 16`.  When the length is already a
multiple of 16 the data is left unchanged. -/
def padPlaintext (data : List Nat) : List Nat :=
  if data.length % 16 ≠ 0 then
    data ++ List.replicate (16 - data.length % 16) (16 - data.length % 16)
  else
    data

/-- Fuel-indexed chunking loop, mirroring the `while True: block_data =
f.read(block_size)` loop of `upload_file` (lines 316-361): repeatedly take
`B` bytes until the remainder is empty.  The fuel is instantiated with the
byte count, enough for the loop to run to completion. -/
def chunksAux (B : Nat) : Nat → List Nat → List (List Nat)
  | 0, _ => []
  | f + 1, l => if l = [] then [] else l.take B :: chunksAux B f (l.drop B)

/-- Splitting a byte string into consecutive blocks of size `B` (last block
possibly shorter), as the sequential `f.read(block_size)` calls produce. -/
def chunks (B : Nat) (l : List Nat) : List (List Nat) :=
  chunksAux B l.length l

/-- Bytewise XOR of two byte strings (the CBC chaining step). -/
def xorBytes (a b : List Nat) : List Nat :=
  List.zipWith (fun x y => x ^^^ y) a b

/-- Modelled from the spec: CBC-mode encryption over an abstract 16-byte
block cipher `E` (the spec's AES-256 with the manifest's content key; the
cipher implementation lives in the `cryptography` library, outside this
repository).  Each plaintext block is XORed with the previous ciphertext
block (the IV first) and passed through `E`. -/
def cbcEncBlocks (E : List Nat → List Nat) : List Nat → List (List Nat) → List (List Nat)
  | _, [] => []
  | prev, b :: bs =>
    let c := E (xorBytes prev b)
    c :: cbcEncBlocks E c bs

/-- Modelled from the spec: CBC-mode decryption over an abstract inverse
block cipher `D`. -/
def cbcDecBlocks (D : List Nat → List Nat) : List Nat → List (List Nat) → List (List Nat)
  | _, [] => []
  | prev, c :: cs => xorBytes prev (D c) :: cbcDecBlocks D c cs

/-- CBC encryption of a byte string whose length is a multiple of 16. -/
def cbcEncrypt (E : List Nat → List Nat) (iv data : List Nat) : List Nat :=
  (cbcEncBlocks E iv (chunks 16 data)).flatten

/-- CBC decryption of a ciphertext byte string. -/
def cbcDecrypt (D : List Nat → List Nat) (iv ct : List Nat) : List Nat :=
  (cbcDecBlocks D iv (chunks 16 ct)).flatten

/-- Modelled from the spec: the trailing-byte-count padding removal the
backend decryptor is described to perform — read the final byte N and drop
the last N bytes.  (The decryptor itself is not part of this repository;
this is the removal procedure matching the padding scheme of spec section
4.1.) -/
def unpadSpec (l : List Nat) : List Nat :=
  l.take (l.length - l.getLast?.getD 0)

/-- Overwriting the start of a file opened in `r+b` mode: `f.write(w)` at
position 0 replaces the first `w.length` bytes (lines 237-238). -/
def writeAt0 (content w : List Nat) : List Nat :=
  w ++ content.drop w.length

/-- Result of `encrypt_file`: the bytes of the `.bin` file, plus the mac and
ciphertext values used in the returned manifest. -/
structure EncryptResult where
  blob : List Nat
  mac : List Nat
  ciphertext : List Nat
  deriving DecidableEq

/-- Byte-level model of `encrypt_file` (lines 192-248), parametric in the
abstract AES block transform `E` and the abstract HMAC function `hmacF`
(both library primitives outside this repository).  Steps from the source:
pad (lines 210-215), CBC-encrypt (line 217), write 32 placeholder bytes,
the IV and the ciphertext (lines 223-226), HMAC over everything after byte
32 (lines 229-234), overwrite the placeholder with the mac (lines 237-238). -/
def encrypt_file (E : List Nat → List Nat)
    (hmacF : List Nat → List Nat → List Nat)
    (hmacKey iv data : List Nat) : EncryptResult :=
  let padded := padPlaintext data
  let ct := cbcEncrypt E iv padded
  let content₀ := List.replicate 32 0 ++ (iv ++ ct)
  let dataForHmac := content₀.drop 32
  let macBytes := hmacF hmacKey dataForHmac
  ⟨writeAt0 content₀ macBytes, macBytes, ct⟩

/-- The 4 MiB block size of the Azure block upload (line 313). -/
def uploadBlockSize : Nat := 4 * 1024 * 1024

/-- The base64 alphabet character for a 6-bit value. -/
def b64Char (n : Nat) : Char :=
  "ABCDEFGHIJKLMNOPQRSTUVWXYZabcdefghijklmnopqrstuvwxyz0123456789+/".toList.getD n 'A'

/-- Standard base64 encoding of a byte list (Python `base64.b64encode`):
three bytes become four alphabet characters, a final group of one or two
bytes is right-padded with `=`. -/
def b64encodeBytes : List Nat → List Char
  | [] => []
  | [a] =>
    let n := a * 65536
    [b64Char (n / 262144 % 64), b64Char (n / 4096 % 64), '=', '=']
  | [a, b] =>
    let n := a * 65536 + b * 256
    [b64Char (n / 262144 % 64), b64Char (n / 4096 % 64), b64Char (n / 64 % 64), '=']
  | a :: b :: c :: rest =>
    let n := a * 65536 + b * 256 + c
    b64Char (n / 262144 % 64) :: b64Char (n / 4096 % 64) :: b64Char (n / 64 % 64)
      :: b64Char (n % 64) :: b64encodeBytes rest

/-- Python zero-padded formatting of the block number to at least four
decimal digits, as in the id template `block-%04d` of line 324. -/
def pad4 (n : Nat) : String :=
  let s := toString n
  String.mk (List.replicate (4 - s.length) '0') ++ s

/-- Block identifier of line 324: the base64 encoding of the bytes of
`block-%04d` instantiated at the block number. -/
def blockId (num : Nat) : String :=
  String.mk (b64encodeBytes ((("block-" ++ pad4 num).toList).map Char.toNat))

/-- The block upload loop of `upload_file` (lines 316-361): for each 4 MiB
read (the last one shorter), the generated block id is appended to
`blocks` (line 325) and the block bytes are PUT (line 332).  Produces the
ordered list of (block number, block id, bytes sent).  `num` is the
`block_num` counter; the fuel is the remaining byte count, enough for the
loop to run to completion. -/
def uploadLoopAux (B : Nat) : Nat → Nat → List Nat → List (Nat × String × List Nat)
  | _, 0, _ => []
  | num, f + 1, rest =>
    if rest = [] then []
    else (num, blockId num, rest.take B) :: uploadLoopAux B (num + 1) f (rest.drop B)

/-- The ordered sequence of block uploads performed on an encrypted blob. -/
def uploadBlocks (data : List Nat) : List (Nat × String × List Nat) :=
  uploadLoopAux uploadBlockSize 0 data.length data

/-- The ordered block-id list used to build the BlockList document
(lines 365-368): the ids in the order they were appended during upload. -/
def blockListIds (data : List Nat) : List String :=
  (uploadBlocks data).map (fun t => t.2.1)

/-- The BlockList XML document of lines 365-368. -/
def blockListXml (ids : List String) : String :=
  "<?xml version=\"1.0\" encoding=\"utf-8\"?><BlockList>"
    ++ String.join (ids.map (fun i => "<Latest>" ++ i ++ "</Latest>"))
    ++ "</BlockList>"

/-- One Azure Storage / Graph request of the blob phase of `upload_file`. -/
inductive AzAction where
  | putBlock (id : String) (bytes : List Nat)
  | putBlockList (ids : List String)
  | commitPost
  deriving DecidableEq

/-- The successful-path request trace of the blob phase (lines 311-405):
each block PUT in loop order, then the single block-list PUT (line 372,
issued unconditionally after the loop, even when no blocks were read),
then the file commit POST (line 392). -/
def blobPhaseActions (data : List Nat) : List AzAction :=
  ((uploadBlocks data).map (fun t => AzAction.putBlock t.2.1 t.2.2))
    ++ [AzAction.putBlockList (blockListIds data), AzAction.commitPost]

/-- Backend upload state as observed by one GET poll (lines 287-301 and
411-427), abstracted to the three cases the loops distinguish: the
required terminal state, an explicit failure state, anything else. -/
inductive PollState where
  | success (uri : String)
  | failedState
  | pending
  deriving DecidableEq

/-- Errors the polling loops can raise. -/
inductive PollError where
  | timeout
  | failedState
  deriving DecidableEq

/-- Shared shape of the two bounded polling loops of `upload_file`: one
GET per iteration against the status stream `s`; the required state ends
the loop with its payload, an explicit failure state raises immediately,
anything else moves to the next attempt; exhausted fuel is the timeout
raise.  Returns the outcome and the number of polls performed.  `a` is
the attempt counter; the fuel is `max_attempts - a`. -/
def waitLoopAux (s : Nat → PollState) : Nat → Nat → (Except PollError String) × Nat
  | _, 0 => (Except.error PollError.timeout, 0)
  | a, f + 1 =>
    match s a with
    | PollState.success uri => (Except.ok uri, 1)
    | PollState.failedState => (Except.error PollError.failedState, 1)
    | PollState.pending =>
      let r := waitLoopAux s (a + 1) f
      (r.1, r.2 + 1)

/-- `max_attempts = 60` of the Azure-Storage-URI wait loop (line 282). -/
def uriMaxAttempts : Nat := 60

/-- The Azure-Storage-URI wait loop (lines 282-309): `while not file_uri
and attempt < max_attempts`, raising on a failed/error state and raising
`Timeout waiting for Azure Storage URI` when attempts are exhausted. -/
def waitForUri (s : Nat → PollState) : (Except PollError String) × Nat :=
  waitLoopAux s 0 uriMaxAttempts

/-- `max_attempts = 60` of the commit confirmation loop (line 409). -/
def commitMaxAttempts : Nat := 60

/-- The commit confirmation loop (lines 408-433): `for attempt in
range(max_attempts)`; `commitFileSuccess` breaks, `commitFileFailed`
raises, and the final pending iteration raises `Timeout waiting for file
commit to complete`. -/
def waitForCommit (s : Nat → PollState) : (Except PollError Unit) × Nat :=
  let r := waitLoopAux s 0 commitMaxAttempts
  (r.1.map (fun _ => ()), r.2)

/-- An HTTP response to the create POST: success with a body, or an error
status code with an optional Retry-After header value. -/
inductive HttpResp where
  | ok (body : String)
  | err (code : Nat) (retryAfter : Option Nat)
  deriving DecidableEq

/-- Errors of the create retry loop: a non-503 response raised immediately
(line 162), or five consecutive 503s (line 180). -/
inductive CreateErr where
  | httpError (code : Nat)
  | exhausted
  deriving DecidableEq

/-- `max_retries = 5` of the create POST loop (line 122). -/
def createMaxRetries : Nat := 5

/-- `base_delay = 10` seconds (line 123). -/
def createBaseDelay : ℚ := 10

/-- `max_delay = 60` seconds (line 124). -/
def createMaxDelay : ℚ := 60

/-- The sleep before the next create attempt (lines 142-147): the
Retry-After header value when present, otherwise
`min(base_delay * 2^attempt + uniform(0,5), max_delay)`. -/
def createDelay (attempt : Nat) (jitter : ℚ) (retryAfter : Option Nat) : ℚ :=
  match retryAfter with
  | some ra => (ra : ℚ)
  | none => min (createBaseDelay * 2 ^ attempt + jitter) createMaxDelay

/-- Outcome of the create POST retry loop: the result, the number of POSTs
issued, and the sleeps performed between attempts. -/
structure CreateOutcome where
  result : Except CreateErr String
  requests : Nat
  delays : List ℚ

/-- The retry loop of `create_app` (lines 122-180): up to `max_retries`
POSTs against the response stream `resp`; `response.ok` breaks with
success; a 503 sleeps `createDelay` and continues; any other status
raises immediately; exhausting the range (the last response being a 503)
raises the after-retries error of line 180.  `a` is the `attempt` index,
the fuel is `max_retries - a`; `jit` is the stream of `random.uniform(0,
5)` draws. -/
def createLoopAux (resp : Nat → HttpResp) (jit : Nat → ℚ) :
    Nat → Nat → CreateOutcome
  | _, 0 => ⟨Except.error CreateErr.exhausted, 0, []⟩
  | a, f + 1 =>
    match resp a with
    | HttpResp.ok body => ⟨Except.ok body, 1, []⟩
    | HttpResp.err code ra =>
      if code = 503 then
        let d := createDelay a (jit a) ra
        let r := createLoopAux resp jit (a + 1) f
        ⟨r.result, r.requests + 1, d :: r.delays⟩
      else
        ⟨Except.error (CreateErr.httpError code), 1, []⟩

/-- The create POST of `create_app` with its full retry policy. -/
def create_app_post (resp : Nat → HttpResp) (jit : Nat → ℚ) : CreateOutcome :=
  createLoopAux resp jit 0 createMaxRetries

/-- A backend mobile-app record, reduced to the fields the update flow
touches. -/
structure AppRecord where
  id : Nat
  displayName : String
  version : String
  deriving DecidableEq

/-- The metadata passed to `create_app`, reduced likewise. -/
structure AppInfo where
  name : String
  version : String
  deriving DecidableEq

/-- The PATCH payload applied to an existing record (lines 50-80), on the
reduced fields. -/
def patchRecord (info : AppInfo) (a : AppRecord) : AppRecord :=
  { a with displayName := info.name, version := info.version }

/-- Outcome of one `create_app` call against a backend state: the backend
records afterwards, the record the function returns, and whether a create
POST added a fresh record. -/
structure CreateFlowResult where
  state : List AppRecord
  returned : AppRecord
  createdNew : Bool
  deriving DecidableEq

/-- The update-or-create flow of `create_app` (lines 35-117) over an
explicit backend state: when `updateExisting` is set and the lookup GET
succeeds (`lookupOk`), the records whose display name equals `info.name`
are fetched (lines 37-44); if any exist, the first (line 46) is PATCHed
in place (lines 50-80) and, when the PATCH succeeds (`patchOk`), the
pre-patch record object is returned (line 84).  On a failed PATCH (lines
85-90), a failed lookup, no match, or `updateExisting` unset, control
falls through to the create POST (lines 92-187), which appends a fresh
record with id `newId`. -/
def create_app_flow (updateExisting lookupOk patchOk : Bool)
    (st : List AppRecord) (info : AppInfo) (newId : Nat) : CreateFlowResult :=
  let fresh : AppRecord := ⟨newId, info.name, info.version⟩
  let created : CreateFlowResult := ⟨st ++ [fresh], fresh, true⟩
  if updateExisting ∧ lookupOk then
    match st.filter (fun a => a.displayName = info.name) with
    | [] => created
    | a :: _ =>
      if patchOk then
        ⟨st.map (fun b => if b.id = a.id then patchRecord info b else b), a, false⟩
      else created
  else created

/-- Whether the module `app_upload.py` binds the name `logger`: it does
not — the file only imports json, requests, os, time, subprocess,
b64encode, the cryptography primitives and random (lines 1-9) and never
assigns `logger`, so every `logger.…` call there raises `NameError`. -/
def moduleDefinesLogger : Bool := false

/-- Outcome classes of the logo attachment attempt distinguished by the
claim: no local logo file, logo read failure, backend PATCH rejected,
backend PATCH accepted. -/
inductive LogoCase where
  | missingLogoFile
  | readFailure
  | patchRejected
  | patchAccepted
  deriving DecidableEq

/-- The `try` body of `add_app_logo` (lines 441-482): the missing-file
path prints and returns (lines 447-449); a read failure raises inside the
body (line 452); the accepted-response path calls `logger.info` (line
476) and the rejected-response path calls `logger.warning` (line 478),
each raising `NameError` when the module does not define `logger`. -/
def addAppLogoBody (c : LogoCase) : Except String Unit :=
  match c with
  | LogoCase.missingLogoFile => Except.ok ()
  | LogoCase.readFailure => Except.error "IOError"
  | LogoCase.patchRejected =>
    if moduleDefinesLogger then Except.ok () else Except.error "NameError"
  | LogoCase.patchAccepted =>
    if moduleDefinesLogger then Except.ok () else Except.error "NameError"

/-- `add_app_logo` (lines 439-484): the body runs under `try`; any
exception is caught by the handler of line 483, which itself calls
`logger.warning` (line 484) and therefore raises `NameError` anew when
`logger` is undefined. -/
def add_app_logo (c : LogoCase) : Except String Unit :=
  match addAppLogoBody c with
  | Except.ok u => Except.ok u
  | Except.error _ =>
    if moduleDefinesLogger then Except.ok () else Except.error "NameError"

/-- The logo step inside `finalize_upload` (line 530): `add_app_logo` is
called inside the surrounding `try`, so an exception from it reaches the
handler of lines 539-540, which wraps and re-raises it, failing the
pipeline. -/
def finalizeLogoStep (c : LogoCase) : Except String Bool :=
  match add_app_logo c with
  | Except.ok _ => Except.ok true
  | Except.error e => Except.error ("Error finalizing upload: " ++ e)

/-- Local filesystem as the list of paths present; creating a file adds
its path if absent. -/
def addPath (fs : List String) (p : String) : List String :=
  if p ∈ fs then fs else fs ++ [p]

/-- Filesystem effect of `encrypt_file` (lines 220-238): the only path
written is `file_path + ".bin"` (created at line 223, re-opened in place
at lines 229 and 237); nothing is deleted and no plaintext temp copy is
made. -/
def encryptFileFs (fs : List String) (path : String) : List String :=
  addPath fs (path ++ ".bin")

/-- Filesystem effect of `upload_file` (lines 250-437) on any exit path
(success, raised error, or exception): the function only reads
`file_path` and `file_path + ".bin"` (lines 262, 263, 316) and contains
no delete or write of a local file, so the filesystem is unchanged
whatever the outcome. -/
def uploadFileFs (fs : List String) (_succeeded : Bool) : List String :=
  fs

/-- Filesystem effect of the whole pipeline (create_app → encrypt_file →
upload_file → finalize_upload, as sequenced in `upload_example.py`): only
`encrypt_file` touches the local disk; `finalize_upload` and
`add_app_logo` only read the logo file. -/
def pipelineFs (fs : List String) (path : String) (uploadSucceeded : Bool) :
    List String :=
  uploadFileFs (encryptFileFs fs path) uploadSucceeded

theorem chunksAux_congr (B : Nat) (hB : 0 < B) :
    ∀ f₁ f₂ : Nat, ∀ l : List Nat,
    l.length ≤ f₁ → l.length ≤ f₂ → chunksAux B f₁ l = chunksAux B f₂ l := by
  intro f₁
  induction f₁ with
  | zero =>
    intro f₂ l h₁ _
    have hl : l = [] := List.length_eq_zero.mp (Nat.le_zero.mp h₁)
    subst hl
    cases f₂ <;> simp [chunksAux]
  | succ f ih =>
    intro f₂ l h₁ h₂
    match f₂ with
    | 0 =>
      have hl : l = [] := List.length_eq_zero.mp (Nat.le_zero.mp h₂)
      subst hl
      simp [chunksAux]
    | f₂ + 1 =>
      by_cases hl : l = []
      · subst hl; simp [chunksAux]
      · have hpos : 0 < l.length := List.length_pos.mpr hl
        simp only [chunksAux, if_neg hl]
        congr 1
        exact ih f₂ (l.drop B) (by rw [List.length_drop]; omega)
          (by rw [List.length_drop]; omega)

theorem chunks_nil (B : Nat) : chunks B [] = [] := rfl

theorem chunks_cons (B : Nat) (hB : 0 < B) (l : List Nat) (hl : l ≠ []) :
    chunks B l = l.take B :: chunks B (l.drop B) := by
  unfold chunks
  have hpos : 0 < l.length := List.length_pos.mpr hl
  obtain ⟨n, hn⟩ : ∃ n, l.length = n + 1 := ⟨l.length - 1, by omega⟩
  rw [hn]
  simp only [chunksAux, if_neg hl]
  congr 1
  exact chunksAux_congr B hB n (l.drop B).length (l.drop B)
    (by rw [List.length_drop]; omega) (le_refl _)

/-- A byte string of length at most `B` forms a single block. -/
theorem chunks_small (B : Nat) (hB : 0 < B) (l : List Nat) (hl : l ≠ [])
    (hlen : l.length ≤ B) : chunks B l = [l] := by
  rw [chunks_cons B hB l hl, List.take_of_length_le hlen,
    List.drop_eq_nil_of_le hlen, chunks_nil]

/-- Reassembling the blocks in order restores the byte string. -/
theorem chunks_flatten (B : Nat) (hB : 0 < B) :
    ∀ l : List Nat, (chunks B l).flatten = l := by
  have H : ∀ n : Nat, ∀ l : List Nat, l.length = n → (chunks B l).flatten = l := by
    intro n
    induction n using Nat.strong_induction_on with
    | _ n ih =>
      intro l hn
      by_cases hl : l = []
      · subst hl; simp [chunks_nil]
      · have hpos : 0 < l.length := List.length_pos.mpr hl
        rw [chunks_cons B hB l hl]
        have hdrop : (l.drop B).length < n := by
          rw [List.length_drop]; omega
        rw [List.flatten_cons, ih (l.drop B).length (by omega) (l.drop B) rfl]
        exact List.take_append_drop B l
  exact fun l => H l.length l rfl

/-- Every block produced by the read loop is nonempty and at most `B` bytes. -/
theorem chunks_mem_length (B : Nat) (hB : 0 < B) :
    ∀ l : List Nat, ∀ c ∈ chunks B l, 0 < c.length ∧ c.length ≤ B := by
  have H : ∀ n : Nat, ∀ l : List Nat, l.length = n →
      ∀ c ∈ chunks B l, 0 < c.length ∧ c.length ≤ B := by
    intro n
    induction n using Nat.strong_induction_on with
    | _ n ih =>
      intro l hn c hc
      by_cases hl : l = []
      · subst hl; simp [chunks_nil] at hc
      · have hpos : 0 < l.length := List.length_pos.mpr hl
        rw [chunks_cons B hB l hl] at hc
        rcases List.mem_cons.mp hc with h | h
        · subst h
          constructor
          · simp [List.length_take]; omega
          · simp [List.length_take]
        · exact ih (l.drop B).length (by rw [List.length_drop]; omega)
            (l.drop B) rfl c h
  exact fun l => H l.length l rfl

/-- All blocks except the final one are exactly `B` bytes. -/
theorem chunks_nonfinal_length (B : Nat) (hB : 0 < B) :
    ∀ l : List Nat, ∀ i : Nat, i + 1 < (chunks B l).length →
    ((chunks B l).getD i []).length = B := by
  have H : ∀ n : Nat, ∀ l : List Nat, l.length = n →
      ∀ i : Nat, i + 1 < (chunks B l).length →
      ((chunks B l).getD i []).length = B := by
    intro n
    induction n using Nat.strong_induction_on with
    | _ n ih =>
      intro l hn i hi
      by_cases hl : l = []
      · subst hl; simp [chunks_nil] at hi
      · have hpos : 0 < l.length := List.length_pos.mpr hl
        rw [chunks_cons B hB l hl] at hi ⊢
        match i with
        | 0 =>
          have htail : chunks B (l.drop B) ≠ [] := by
            intro hh
            simp [hh] at hi
          have hdl : l.drop B ≠ [] := by
            intro hh
            rw [hh, chunks_nil] at htail
            exact htail rfl
          have hBl : B < l.length := by
            by_contra hge
            exact hdl (List.drop_eq_nil_of_le (by omega))
          simp [List.length_take]
          omega
        | i + 1 =>
          simp only [List.getD_cons_succ]
          exact ih (l.drop B).length (by rw [List.length_drop]; omega)
            (l.drop B) rfl i (by simpa using hi)
  exact fun l => H l.length l rfl

theorem length_xorBytes (a b : List Nat) :
    (xorBytes a b).length = min a.length b.length := by
  simp [xorBytes]

theorem xorBytes_xorBytes (a : List Nat) :
    ∀ b : List Nat, a.length = b.length → xorBytes a (xorBytes a b) = b := by
  induction a with
  | nil =>
    intro b hb
    have : b = [] := List.length_eq_zero.mp hb.symm
    subst this; rfl
  | cons x xs ih =>
    intro b hb
    match b with
    | [] => simp at hb
    | y :: ys =>
      have hxy : xs.length = ys.length := by
        simp only [List.length_cons] at hb
        omega
      simp only [xorBytes, List.zipWith_cons_cons]
      have h1 : x ^^^ (x ^^^ y) = y := by
        rw [← Nat.xor_assoc, Nat.xor_self, Nat.zero_xor]
      have ih' := ih ys hxy
      simp only [xorBytes] at ih'
      rw [h1, ih']

/-- When the byte length is a positive multiple of 16, every block the read
loop produces is exactly 16 bytes. -/
theorem chunks16_mem_exact : ∀ l : List Nat, 16 ∣ l.length →
    ∀ c ∈ chunks 16 l, c.length = 16 := by
  have H : ∀ n : Nat, ∀ l : List Nat, l.length = n → 16 ∣ l.length →
      ∀ c ∈ chunks 16 l, c.length = 16 := by
    intro n
    induction n using Nat.strong_induction_on with
    | _ n ih =>
      intro l hn hdvd c hc
      by_cases hl : l = []
      · subst hl; simp [chunks_nil] at hc
      · have hpos : 0 < l.length := List.length_pos.mpr hl
        have h16 : 16 ≤ l.length := Nat.le_of_dvd hpos hdvd
        rw [chunks_cons 16 (by norm_num) l hl] at hc
        rcases List.mem_cons.mp hc with h | h
        · subst h; simp [List.length_take]; omega
        · refine ih (l.drop 16).length (by rw [List.length_drop]; omega)
            (l.drop 16) rfl ?_ c h
          rw [List.length_drop]
          exact (Nat.dvd_sub' hdvd (dvd_refl 16))
  exact fun l => H l.length l rfl

/-- Chunking is a left inverse of flattening on lists of exact 16-byte
blocks. -/
theorem chunks16_flatten_blocks : ∀ bs : List (List Nat),
    (∀ b ∈ bs, b.length = 16) → chunks 16 bs.flatten = bs := by
  intro bs
  induction bs with
  | nil => intro _; simp [chunks_nil]
  | cons b bs ih =>
    intro hlen
    have hb : b.length = 16 := hlen b (List.mem_cons_self b bs)
    have hbne : b ≠ [] := by
      intro hh; rw [hh] at hb; simp at hb
    have hne : (b :: bs).flatten ≠ [] := by
      simp only [List.flatten_cons]
      intro hh
      exact hbne (List.append_eq_nil.mp hh).1
    rw [List.flatten_cons, chunks_cons 16 (by norm_num) _ (by rwa [List.flatten_cons] at hne)]
    have htake : (b ++ bs.flatten).take 16 = b := by
      rw [← hb]; exact List.take_left b bs.flatten
    have hdrop : (b ++ bs.flatten).drop 16 = bs.flatten := by
      rw [← hb]; exact List.drop_left b bs.flatten
    rw [htake, hdrop, ih (fun c hc => hlen c (List.mem_cons_of_mem b hc))]

/-- CBC encryption over an abstract block cipher keeps blocks 16 bytes. -/
theorem cbcEncBlocks_mem_length (E : List Nat → List Nat)
    (hE : ∀ x, x.length = 16 → (E x).length = 16) :
    ∀ bs : List (List Nat), ∀ prev : List Nat, prev.length = 16 →
    (∀ b ∈ bs, b.length = 16) → ∀ c ∈ cbcEncBlocks E prev bs, c.length = 16 := by
  intro bs
  induction bs with
  | nil => intro prev _ _ c hc; simp [cbcEncBlocks] at hc
  | cons b bs ih =>
    intro prev hprev hlen c hc
    have hb : b.length = 16 := hlen b (List.mem_cons_self b bs)
    have hx : (xorBytes prev b).length = 16 := by
      rw [length_xorBytes, hprev, hb]; rfl
    have hc16 : (E (xorBytes prev b)).length = 16 := hE _ hx
    simp only [cbcEncBlocks] at hc
    rcases List.mem_cons.mp hc with h | h
    · subst h; exact hc16
    · exact ih (E (xorBytes prev b)) hc16
        (fun d hd => hlen d (List.mem_cons_of_mem b hd)) c h

/-- Blockwise CBC decryption inverts blockwise CBC encryption. -/
theorem cbcDecBlocks_cbcEncBlocks (E D : List Nat → List Nat)
    (hE : ∀ x, x.length = 16 → (E x).length = 16)
    (hD : ∀ x, x.length = 16 → D (E x) = x) :
    ∀ bs : List (List Nat), ∀ prev : List Nat, prev.length = 16 →
    (∀ b ∈ bs, b.length = 16) →
    cbcDecBlocks D prev (cbcEncBlocks E prev bs) = bs := by
  intro bs
  induction bs with
  | nil => intro prev _ _; rfl
  | cons b bs ih =>
    intro prev hprev hlen
    have hb : b.length = 16 := hlen b (List.mem_cons_self b bs)
    have hx : (xorBytes prev b).length = 16 := by
      rw [length_xorBytes, hprev, hb]; rfl
    simp only [cbcEncBlocks, cbcDecBlocks]
    rw [hD _ hx, xorBytes_xorBytes prev b (by omega),
      ih (E (xorBytes prev b)) (hE _ hx)
        (fun d hd => hlen d (List.mem_cons_of_mem b hd))]

/-- The padded plaintext always has a length that is a multiple of 16. -/
theorem padPlaintext_length_mod (data : List Nat) :
    (padPlaintext data).length % 16 = 0 := by
  unfold padPlaintext
  by_cases h : data.length % 16 ≠ 0
  · rw [if_pos h]
    simp only [List.length_append, List.length_replicate]
    omega
  · rw [if_neg h]
    omega

/-- When the input length is not a multiple of 16, exactly
`N = 16 − (length mod 16)` bytes of value `N` are appended. -/
theorem padPlaintext_of_not_dvd (data : List Nat) (h : data.length % 16 ≠ 0) :
    padPlaintext data =
      data ++ List.replicate (16 - data.length % 16) (16 - data.length % 16) := by
  simp [padPlaintext, h]

/-- When the input length is a multiple of 16, the plaintext is unchanged. -/
theorem padPlaintext_of_dvd (data : List Nat) (h : data.length % 16 = 0) :
    padPlaintext data = data := by
  simp [padPlaintext, h]

/-- CBC decryption with the inverse cipher recovers the padded plaintext. -/
theorem cbcDecrypt_cbcEncrypt (E D : List Nat → List Nat)
    (hE : ∀ x, x.length = 16 → (E x).length = 16)
    (hD : ∀ x, x.length = 16 → D (E x) = x)
    (iv m : List Nat) (hiv : iv.length = 16) (hm : 16 ∣ m.length) :
    cbcDecrypt D iv (cbcEncrypt E iv m) = m := by
  unfold cbcEncrypt cbcDecrypt
  have hblocks : ∀ b ∈ chunks 16 m, b.length = 16 := chunks16_mem_exact m hm
  have henc : ∀ c ∈ cbcEncBlocks E iv (chunks 16 m), c.length = 16 :=
    cbcEncBlocks_mem_length E hE (chunks 16 m) iv hiv hblocks
  rw [chunks16_flatten_blocks _ henc,
    cbcDecBlocks_cbcEncBlocks E D hE hD (chunks 16 m) iv hiv hblocks,
    chunks_flatten 16 (by norm_num) m]

/-- C1 (counterexample to the claim as stated): a 16-byte plaintext, whose
length is already a multiple of 16, receives no padding at all from
`encrypt_file` — not a full 16-byte padding block; the padded length stays
16 rather than 32. -/
theorem padPlaintext_full_block_counterexample :
    padPlaintext (List.replicate 16 0) = List.replicate 16 0
    ∧ (padPlaintext (List.replicate 16 0)).length ≠ 32 := by decide

/-- C1 (amended): `encrypt_file` pads the plaintext to a multiple of the
16-byte block size by appending N bytes each of value N, where
N = 16 − (length mod 16), only when the length is not already a multiple
of 16; an input whose length is a multiple of 16 is left unchanged (no
padding block is added). -/
theorem padPlaintext_amended (data : List Nat) :
    (padPlaintext data).length % 16 = 0
    ∧ (data.length % 16 ≠ 0 →
        padPlaintext data =
          data ++ List.replicate (16 - data.length % 16) (16 - data.length % 16))
    ∧ (data.length % 16 = 0 → padPlaintext data = data) :=
  ⟨padPlaintext_length_mod data, padPlaintext_of_not_dvd data, padPlaintext_of_dvd data⟩

/-- C1 (witness): at the three-byte input `[1, 2, 3]`, thirteen bytes of
value 13 are appended and the result is a multiple of 16. -/
theorem padPlaintext_amended_witness :
    (padPlaintext [1, 2, 3]).length % 16 = 0
    ∧ padPlaintext [1, 2, 3] = [1, 2, 3] ++ List.replicate 13 13 :=
  ⟨(padPlaintext_amended [1, 2, 3]).1,
   (padPlaintext_amended [1, 2, 3]).2.1 (by decide)⟩

/-- C2: the encrypted blob written by `encrypt_file` is exactly the 32-byte
mac, then the 16-byte initialization vector, then the ciphertext, where the
mac is the HMAC (abstract `hmacF`, keyed by the authentication key) over
`initializationVector ++ ciphertext`; recomputing that HMAC over the stored
bytes after the mac equals the stored mac. -/
theorem encrypt_file_blob_layout (E : List Nat → List Nat)
    (hmacF : List Nat → List Nat → List Nat) (hmacKey iv data : List Nat)
    (hiv : iv.length = 16)
    (hm32 : ∀ k d : List Nat, (hmacF k d).length = 32) :
    (encrypt_file E hmacF hmacKey iv data).blob
      = (encrypt_file E hmacF hmacKey iv data).mac
        ++ iv ++ (encrypt_file E hmacF hmacKey iv data).ciphertext
    ∧ (encrypt_file E hmacF hmacKey iv data).mac.length = 32
    ∧ (encrypt_file E hmacF hmacKey iv data).blob.take 32
      = (encrypt_file E hmacF hmacKey iv data).mac
    ∧ ((encrypt_file E hmacF hmacKey iv data).blob.drop 32).take 16 = iv
    ∧ ((encrypt_file E hmacF hmacKey iv data).blob.drop 32).drop 16
      = (encrypt_file E hmacF hmacKey iv data).ciphertext
    ∧ hmacF hmacKey ((encrypt_file E hmacF hmacKey iv data).blob.drop 32)
      = (encrypt_file E hmacF hmacKey iv data).mac := by
  have hrep : (List.replicate 32 (0 : Nat)).length = 32 := by simp
  set ct := cbcEncrypt E iv (padPlaintext data) with hct
  have hhmacArg :
      (List.replicate 32 (0 : Nat) ++ (iv ++ ct)).drop 32 = iv ++ ct := by
    rw [← hrep]
    exact List.drop_left _ _
  have hmac : (encrypt_file E hmacF hmacKey iv data).mac
      = hmacF hmacKey (iv ++ ct) := by
    simp only [encrypt_file, hhmacArg]
  have hmaclen : (encrypt_file E hmacF hmacKey iv data).mac.length = 32 := by
    rw [hmac]; exact hm32 _ _
  have hblob : (encrypt_file E hmacF hmacKey iv data).blob
      = (encrypt_file E hmacF hmacKey iv data).mac ++ (iv ++ ct) := by
    simp only [encrypt_file, writeAt0, hhmacArg]
    congr 1
    rw [hm32 hmacKey (iv ++ ct), ← hrep]
    exact List.drop_left _ _
  have hdrop32 : (encrypt_file E hmacF hmacKey iv data).blob.drop 32 = iv ++ ct := by
    rw [hblob, ← hmaclen]
    exact List.drop_left _ _
  have hcteq : (encrypt_file E hmacF hmacKey iv data).ciphertext = ct := rfl
  refine ⟨?_, hmaclen, ?_, ?_, ?_, ?_⟩
  · rw [hblob, hcteq, List.append_assoc]
  · rw [hblob, ← hmaclen]
    exact List.take_left _ _
  · rw [hdrop32, ← hiv]
    exact List.take_left _ _
  · rw [hdrop32, hcteq, ← hiv]
    exact List.drop_left _ _
  · rw [hdrop32, hmac]

/-- C2 (witness): the layout facts evaluated at a concrete input, with the
identity block transform and a constant 32-byte HMAC stub. -/
theorem encrypt_file_blob_layout_witness :
    (encrypt_file id (fun _ _ => List.replicate 32 1) [7] (List.replicate 16 0) [1, 2, 3]).blob
      = (encrypt_file id (fun _ _ => List.replicate 32 1) [7] (List.replicate 16 0) [1, 2, 3]).mac
        ++ List.replicate 16 0
        ++ (encrypt_file id (fun _ _ => List.replicate 32 1) [7] (List.replicate 16 0) [1, 2, 3]).ciphertext
    ∧ (encrypt_file id (fun _ _ => List.replicate 32 1) [7] (List.replicate 16 0) [1, 2, 3]).mac.length = 32
    ∧ (encrypt_file id (fun _ _ => List.replicate 32 1) [7] (List.replicate 16 0) [1, 2, 3]).blob.take 32
      = (encrypt_file id (fun _ _ => List.replicate 32 1) [7] (List.replicate 16 0) [1, 2, 3]).mac
    ∧ ((encrypt_file id (fun _ _ => List.replicate 32 1) [7] (List.replicate 16 0) [1, 2, 3]).blob.drop 32).take 16
      = List.replicate 16 0
    ∧ ((encrypt_file id (fun _ _ => List.replicate 32 1) [7] (List.replicate 16 0) [1, 2, 3]).blob.drop 32).drop 16
      = (encrypt_file id (fun _ _ => List.replicate 32 1) [7] (List.replicate 16 0) [1, 2, 3]).ciphertext
    ∧ (fun _ _ => List.replicate 32 1) [7]
        ((encrypt_file id (fun _ _ => List.replicate 32 1) [7] (List.replicate 16 0) [1, 2, 3]).blob.drop 32)
      = (encrypt_file id (fun _ _ => List.replicate 32 1) [7] (List.replicate 16 0) [1, 2, 3]).mac :=
  encrypt_file_blob_layout id (fun _ _ => List.replicate 32 1) [7]
    (List.replicate 16 0) [1, 2, 3] (by decide) (fun k d => by simp)

/-- C3 (counterexample to the claim as stated): for the 16-byte plaintext
ending in byte value 1, `encrypt_file` adds no padding, so decrypting the
ciphertext portion and then removing the trailing-byte-count padding strips
one byte of real data and does not recover the plaintext. -/
theorem cbc_unpad_counterexample :
    unpadSpec (cbcDecrypt id (List.replicate 16 0)
        ((encrypt_file id (fun _ _ => List.replicate 32 1) [7]
          (List.replicate 16 0) (List.replicate 15 0 ++ [1])).ciphertext))
      ≠ List.replicate 15 0 ++ [1] := by decide

/-- C3 (amended): decrypting the ciphertext portion of the `encrypt_file`
output with the manifest key and IV always recovers the padded plaintext,
and truncating it to the original length recovers the original bytes for
every input length (including 0 and multiples of 16); removing the padding
by the trailing-byte-count rule recovers the original bytes exactly when
the input length is not a multiple of 16 (for multiples of 16 no padding
was added, so there is none to remove). -/
theorem cbc_roundtrip_amended (E D : List Nat → List Nat)
    (hmacF : List Nat → List Nat → List Nat) (hmacKey iv data : List Nat)
    (hE : ∀ x, x.length = 16 → (E x).length = 16)
    (hD : ∀ x, x.length = 16 → D (E x) = x)
    (hiv : iv.length = 16) :
    cbcDecrypt D iv ((encrypt_file E hmacF hmacKey iv data).ciphertext)
      = padPlaintext data
    ∧ (cbcDecrypt D iv ((encrypt_file E hmacF hmacKey iv data).ciphertext)).take
        data.length = data
    ∧ (data.length % 16 ≠ 0 →
        unpadSpec (cbcDecrypt D iv ((encrypt_file E hmacF hmacKey iv data).ciphertext))
          = data) := by
  have hcteq : (encrypt_file E hmacF hmacKey iv data).ciphertext
      = cbcEncrypt E iv (padPlaintext data) := rfl
  have hround : cbcDecrypt D iv ((encrypt_file E hmacF hmacKey iv data).ciphertext)
      = padPlaintext data := by
    rw [hcteq]
    exact cbcDecrypt_cbcEncrypt E D hE hD iv (padPlaintext data) hiv
      (Nat.dvd_of_mod_eq_zero (padPlaintext_length_mod data))
  refine ⟨hround, ?_, ?_⟩
  · rw [hround]
    by_cases h : data.length % 16 ≠ 0
    · rw [padPlaintext_of_not_dvd data h]
      exact List.take_left data _
    · rw [padPlaintext_of_dvd data (by omega), List.take_length]
  · intro h
    rw [hround, padPlaintext_of_not_dvd data h]
    have hmod : data.length % 16 < 16 := Nat.mod_lt _ (by norm_num)
    set N := 16 - data.length % 16 with hN
    have hN1 : 1 ≤ N := by omega
    have hrepl : List.replicate N N = List.replicate (N - 1) N ++ [N] := by
      obtain ⟨m, hm⟩ : ∃ m, N = m + 1 := ⟨N - 1, by omega⟩
      rw [hm]
      simpa using List.replicate_succ' m (m + 1)
    unfold unpadSpec
    rw [hrepl, ← List.append_assoc, List.getLast?_concat]
    have hlen3 : (data ++ List.replicate (N - 1) N ++ [N]).length
        - (Option.getD (some N) 0) = data.length := by
      simp only [Option.getD_some, List.length_append, List.length_replicate,
        List.length_cons, List.length_nil]
      omega
    rw [hlen3, List.append_assoc, ← hrepl]
    exact List.take_left data (List.replicate N N)

/-- C3 (witness): at the one-byte input `[9]` with the identity cipher and
a zero IV, the round trip recovers `[9]` both by truncation and by the
trailing-byte-count padding removal. -/
theorem cbc_roundtrip_amended_witness :
    cbcDecrypt id (List.replicate 16 0)
        ((encrypt_file id (fun _ _ => List.replicate 32 1) [7]
          (List.replicate 16 0) [9]).ciphertext)
      = padPlaintext [9]
    ∧ (cbcDecrypt id (List.replicate 16 0)
        ((encrypt_file id (fun _ _ => List.replicate 32 1) [7]
          (List.replicate 16 0) [9]).ciphertext)).take 1 = [9]
    ∧ unpadSpec (cbcDecrypt id (List.replicate 16 0)
        ((encrypt_file id (fun _ _ => List.replicate 32 1) [7]
          (List.replicate 16 0) [9]).ciphertext)) = [9] := by
  have h := cbc_roundtrip_amended id id (fun _ _ => List.replicate 32 1) [7]
    (List.replicate 16 0) [9] (fun x hx => hx) (fun x _ => rfl) (by decide)
  exact ⟨h.1, h.2.1, h.2.2 (by decide)⟩

theorem uploadLoopAux_map_data (B : Nat) (hB : 0 < B) :
    ∀ f num : Nat, ∀ rest : List Nat, rest.length ≤ f →
    (uploadLoopAux B num f rest).map (fun t => t.2.2) = chunks B rest := by
  intro f
  induction f with
  | zero =>
    intro num rest h
    have : rest = [] := List.length_eq_zero.mp (Nat.le_zero.mp h)
    subst this
    simp [uploadLoopAux, chunks_nil]
  | succ f ih =>
    intro num rest h
    by_cases hr : rest = []
    · subst hr; simp [uploadLoopAux, chunks_nil]
    · have hpos : 0 < rest.length := List.length_pos.mpr hr
      simp only [uploadLoopAux, if_neg hr, List.map_cons]
      rw [chunks_cons B hB rest hr,
        ih (num + 1) (rest.drop B) (by rw [List.length_drop]; omega)]

theorem uploadLoopAux_map_num (B : Nat) (hB : 0 < B) :
    ∀ f num : Nat, ∀ rest : List Nat, rest.length ≤ f →
    (uploadLoopAux B num f rest).map (fun t => t.1)
      = List.range' num (chunks B rest).length := by
  intro f
  induction f with
  | zero =>
    intro num rest h
    have : rest = [] := List.length_eq_zero.mp (Nat.le_zero.mp h)
    subst this
    simp [uploadLoopAux, chunks_nil]
  | succ f ih =>
    intro num rest h
    by_cases hr : rest = []
    · subst hr; simp [uploadLoopAux, chunks_nil]
    · have hpos : 0 < rest.length := List.length_pos.mpr hr
      simp only [uploadLoopAux, if_neg hr, List.map_cons]
      rw [chunks_cons B hB rest hr,
        ih (num + 1) (rest.drop B) (by rw [List.length_drop]; omega)]
      simp [List.range'_succ]

theorem uploadLoopAux_map_id (B : Nat) (hB : 0 < B) :
    ∀ f num : Nat, ∀ rest : List Nat, rest.length ≤ f →
    (uploadLoopAux B num f rest).map (fun t => t.2.1)
      = (List.range' num (chunks B rest).length).map blockId := by
  intro f
  induction f with
  | zero =>
    intro num rest h
    have : rest = [] := List.length_eq_zero.mp (Nat.le_zero.mp h)
    subst this
    simp [uploadLoopAux, chunks_nil]
  | succ f ih =>
    intro num rest h
    by_cases hr : rest = []
    · subst hr; simp [uploadLoopAux, chunks_nil]
    · have hpos : 0 < rest.length := List.length_pos.mpr hr
      simp only [uploadLoopAux, if_neg hr, List.map_cons]
      rw [chunks_cons B hB rest hr,
        ih (num + 1) (rest.drop B) (by rw [List.length_drop]; omega)]
      simp [List.range'_succ]

/-- The 10 MiB blob splits into blocks of 4 MiB, 4 MiB and 2 MiB. -/
theorem chunks_ten_mib :
    (chunks uploadBlockSize (List.replicate 10485760 0)).map List.length
      = [4194304, 4194304, 2097152] := by
  have hB : (0 : Nat) < uploadBlockSize := by norm_num [uploadBlockSize]
  have hne : ∀ n : Nat, 0 < n → (List.replicate n (0 : Nat)) ≠ [] := by
    intro n hn
    apply List.ne_nil_of_length_pos
    rwa [List.length_replicate]
  have h1 : chunks uploadBlockSize (List.replicate 10485760 (0 : Nat))
      = List.replicate 4194304 0 :: chunks uploadBlockSize (List.replicate 6291456 0) := by
    rw [chunks_cons uploadBlockSize hB _ (hne _ (by norm_num)), List.take_replicate,
      List.drop_replicate]
    norm_num [uploadBlockSize]
  have h2 : chunks uploadBlockSize (List.replicate 6291456 (0 : Nat))
      = List.replicate 4194304 0 :: chunks uploadBlockSize (List.replicate 2097152 0) := by
    rw [chunks_cons uploadBlockSize hB _ (hne _ (by norm_num)), List.take_replicate,
      List.drop_replicate]
    norm_num [uploadBlockSize]
  have h3 : chunks uploadBlockSize (List.replicate 2097152 (0 : Nat))
      = [List.replicate 2097152 0] :=
    chunks_small uploadBlockSize hB _ (hne _ (by norm_num)) (by norm_num [uploadBlockSize])
  rw [h1, h2, h3]
  simp only [List.map_cons, List.map_nil, List.length_replicate]

/-- C4: the chunked upload splits the encrypted blob into ordered blocks —
every non-final block exactly 4 MiB, the final block the nonempty remainder
of at most 4 MiB, reassembling to the blob — uploads them with block
numbers in strictly ascending order `0, 1, 2, …`, and the finalize
block-list carries the block identifiers in exactly that ascending upload
order; a 10 MiB input yields exactly the block sizes 4 MiB, 4 MiB, 2 MiB in
that order. -/
theorem upload_block_splitting_ordered (data : List Nat) :
    ((uploadBlocks data).map (fun t => t.2.2) = chunks uploadBlockSize data)
    ∧ ((uploadBlocks data).map (fun t => t.1)
        = List.range (chunks uploadBlockSize data).length)
    ∧ (blockListIds data
        = (List.range (chunks uploadBlockSize data).length).map blockId)
    ∧ (∀ i : Nat, i + 1 < (chunks uploadBlockSize data).length →
        ((chunks uploadBlockSize data).getD i []).length = uploadBlockSize)
    ∧ (∀ c ∈ chunks uploadBlockSize data, 0 < c.length ∧ c.length ≤ uploadBlockSize)
    ∧ (chunks uploadBlockSize data).flatten = data
    ∧ ((chunks uploadBlockSize (List.replicate 10485760 0)).map List.length
        = [4194304, 4194304, 2097152]) := by
  have hB : (0 : Nat) < uploadBlockSize := by norm_num [uploadBlockSize]
  refine ⟨?_, ?_, ?_, ?_, ?_, ?_, chunks_ten_mib⟩
  · exact uploadLoopAux_map_data uploadBlockSize hB data.length 0 data (le_refl _)
  · rw [List.range_eq_range']
    exact uploadLoopAux_map_num uploadBlockSize hB data.length 0 data (le_refl _)
  · rw [List.range_eq_range']
    exact uploadLoopAux_map_id uploadBlockSize hB data.length 0 data (le_refl _)
  · exact chunks_nonfinal_length uploadBlockSize hB data
  · exact chunks_mem_length uploadBlockSize hB data
  · exact chunks_flatten uploadBlockSize hB data

/-- C4 (witness): the single block of the one-byte blob `[5]` is nonempty
and within the 4 MiB bound. -/
theorem upload_block_splitting_ordered_witness :
    0 < ([5] : List Nat).length ∧ ([5] : List Nat).length ≤ uploadBlockSize :=
  (upload_block_splitting_ordered [5]).2.2.2.2.1 [5]
    (by
      rw [chunks_small uploadBlockSize (by norm_num [uploadBlockSize]) [5]
        (by simp) (by norm_num [uploadBlockSize])]
      exact List.mem_singleton_self ([5] : List Nat))

/-- C10: on an empty encrypted payload the block loop uploads zero blocks,
yet the blob phase still issues the block-list finalize call with an empty
block-identifier list before proceeding to the commit request. -/
theorem empty_payload_blob_phase :
    uploadBlocks [] = []
    ∧ blockListIds [] = []
    ∧ blobPhaseActions [] = [AzAction.putBlockList [], AzAction.commitPost]
    ∧ blockListXml []
      = "<?xml version=\"1.0\" encoding=\"utf-8\"?><BlockList></BlockList>" := by
  refine ⟨rfl, rfl, rfl, ?_⟩
  decide

theorem waitLoopAux_all_pending (s : Nat → PollState) :
    ∀ f a : Nat, (∀ i, a ≤ i → i < a + f → s i = PollState.pending) →
    waitLoopAux s a f = (Except.error PollError.timeout, f) := by
  intro f
  induction f with
  | zero => intro a _; rfl
  | succ f ih =>
    intro a h
    have ha : s a = PollState.pending := h a (le_refl a) (by omega)
    simp only [waitLoopAux, ha]
    rw [ih (a + 1) (fun i h1 h2 => h i (by omega) (by omega))]

theorem waitLoopAux_polls_le (s : Nat → PollState) :
    ∀ f a : Nat, (waitLoopAux s a f).2 ≤ f := by
  intro f
  induction f with
  | zero => intro a; exact le_refl 0
  | succ f ih =>
    intro a
    cases hs : s a with
    | success uri =>
      simp only [waitLoopAux, hs]
      exact Nat.succ_le_succ (Nat.zero_le f)
    | failedState =>
      simp only [waitLoopAux, hs]
      exact Nat.succ_le_succ (Nat.zero_le f)
    | pending =>
      simp only [waitLoopAux, hs]
      exact Nat.succ_le_succ (ih (a + 1))

/-- C5: each of the two polling loops of `upload_file` performs at most its
fixed maximum number of polls (60 each) whatever the backend reports, and a
backend that stays in a non-terminal state for every poll within the bound
makes the loop end with the timeout error after exactly the maximum number
of polls, rather than waiting unboundedly. -/
theorem polling_loops_bounded (s₁ s₂ : Nat → PollState)
    (h₁ : ∀ i, i < uriMaxAttempts → s₁ i = PollState.pending)
    (h₂ : ∀ i, i < commitMaxAttempts → s₂ i = PollState.pending) :
    waitForUri s₁ = (Except.error PollError.timeout, uriMaxAttempts)
    ∧ waitForCommit s₂ = (Except.error PollError.timeout, commitMaxAttempts)
    ∧ (∀ s : Nat → PollState, (waitForUri s).2 ≤ uriMaxAttempts)
    ∧ (∀ s : Nat → PollState, (waitForCommit s).2 ≤ commitMaxAttempts) := by
  refine ⟨?_, ?_, ?_, ?_⟩
  · exact waitLoopAux_all_pending s₁ uriMaxAttempts 0
      (fun i hi1 hi2 => h₁ i (by omega))
  · have hh := waitLoopAux_all_pending s₂ commitMaxAttempts 0
      (fun i hi1 hi2 => h₂ i (by omega))
    simp only [waitForCommit, hh]
    rfl
  · intro s
    exact waitLoopAux_polls_le s uriMaxAttempts 0
  · intro s
    simp only [waitForCommit]
    exact waitLoopAux_polls_le s commitMaxAttempts 0

/-- C5 (witness): the always-pending backend makes both loops time out
after exactly 60 polls. -/
theorem polling_loops_bounded_witness :
    waitForUri (fun _ => PollState.pending)
      = (Except.error PollError.timeout, uriMaxAttempts)
    ∧ waitForCommit (fun _ => PollState.pending)
      = (Except.error PollError.timeout, commitMaxAttempts) :=
  ⟨(polling_loops_bounded (fun _ => PollState.pending) (fun _ => PollState.pending)
      (fun _ _ => rfl) (fun _ _ => rfl)).1,
   (polling_loops_bounded (fun _ => PollState.pending) (fun _ => PollState.pending)
      (fun _ _ => rfl) (fun _ _ => rfl)).2.1⟩

theorem createLoopAux_step_503 (resp : Nat → HttpResp) (jit : Nat → ℚ)
    (a f : Nat) (ha : resp a = HttpResp.err 503 none) :
    createLoopAux resp jit a (f + 1)
      = ⟨(createLoopAux resp jit (a + 1) f).result,
         (createLoopAux resp jit (a + 1) f).requests + 1,
         createDelay a (jit a) none :: (createLoopAux resp jit (a + 1) f).delays⟩ := by
  simp [createLoopAux, ha]

theorem createLoopAux_step_ok (resp : Nat → HttpResp) (jit : Nat → ℚ)
    (a f : Nat) (b : String) (ha : resp a = HttpResp.ok b) :
    createLoopAux resp jit a (f + 1) = ⟨Except.ok b, 1, []⟩ := by
  simp [createLoopAux, ha]

theorem createLoopAux_step_err (resp : Nat → HttpResp) (jit : Nat → ℚ)
    (a f : Nat) (c : Nat) (ra : Option Nat)
    (ha : resp a = HttpResp.err c ra) (hc : c ≠ 503) :
    createLoopAux resp jit a (f + 1)
      = ⟨Except.error (CreateErr.httpError c), 1, []⟩ := by
  simp [createLoopAux, ha, hc]

/-- C6: the create POST of `create_app` retries only on a 503 response,
with at most `max_retries = 5` attempts and exponential backoff plus jitter
capped at 60 seconds: four 503s followed by a success yield overall success
after exactly five requests; five consecutive 503s yield the create error;
any other non-success response fails immediately after a single request
with no retry. -/
theorem create_retry_policy (resp : Nat → HttpResp) (jit : Nat → ℚ)
    (body : String) (code : Nat) :
    ((∀ i, i < createMaxRetries - 1 → resp i = HttpResp.err 503 none) →
      resp (createMaxRetries - 1) = HttpResp.ok body →
      create_app_post resp jit
        = ⟨Except.ok body, createMaxRetries,
            [min (createBaseDelay * 2 ^ 0 + jit 0) createMaxDelay,
             min (createBaseDelay * 2 ^ 1 + jit 1) createMaxDelay,
             min (createBaseDelay * 2 ^ 2 + jit 2) createMaxDelay,
             min (createBaseDelay * 2 ^ 3 + jit 3) createMaxDelay]⟩)
    ∧ ((∀ i, i < createMaxRetries → resp i = HttpResp.err 503 none) →
      create_app_post resp jit
        = ⟨Except.error CreateErr.exhausted, createMaxRetries,
            [min (createBaseDelay * 2 ^ 0 + jit 0) createMaxDelay,
             min (createBaseDelay * 2 ^ 1 + jit 1) createMaxDelay,
             min (createBaseDelay * 2 ^ 2 + jit 2) createMaxDelay,
             min (createBaseDelay * 2 ^ 3 + jit 3) createMaxDelay,
             min (createBaseDelay * 2 ^ 4 + jit 4) createMaxDelay]⟩)
    ∧ (resp 0 = HttpResp.err code none → code ≠ 503 →
      create_app_post resp jit
        = ⟨Except.error (CreateErr.httpError code), 1, []⟩) := by
  refine ⟨?_, ?_, ?_⟩
  · intro h hok
    have e0 := h 0 (by norm_num [createMaxRetries])
    have e1 := h 1 (by norm_num [createMaxRetries])
    have e2 := h 2 (by norm_num [createMaxRetries])
    have e3 := h 3 (by norm_num [createMaxRetries])
    have e4 : resp 4 = HttpResp.ok body := by
      simpa [createMaxRetries] using hok
    have expand : create_app_post resp jit = createLoopAux resp jit 0 (4 + 1) := rfl
    rw [expand, createLoopAux_step_503 resp jit 0 4 e0,
      show createLoopAux resp jit 1 4 = createLoopAux resp jit 1 (3 + 1) from rfl,
      createLoopAux_step_503 resp jit 1 3 e1,
      show createLoopAux resp jit 2 3 = createLoopAux resp jit 2 (2 + 1) from rfl,
      createLoopAux_step_503 resp jit 2 2 e2,
      show createLoopAux resp jit 3 2 = createLoopAux resp jit 3 (1 + 1) from rfl,
      createLoopAux_step_503 resp jit 3 1 e3,
      show createLoopAux resp jit 4 1 = createLoopAux resp jit 4 (0 + 1) from rfl,
      createLoopAux_step_ok resp jit 4 0 body e4]
    simp [createDelay, createMaxRetries]
  · intro h
    have e0 := h 0 (by norm_num [createMaxRetries])
    have e1 := h 1 (by norm_num [createMaxRetries])
    have e2 := h 2 (by norm_num [createMaxRetries])
    have e3 := h 3 (by norm_num [createMaxRetries])
    have e4 := h 4 (by norm_num [createMaxRetries])
    have expand : create_app_post resp jit = createLoopAux resp jit 0 (4 + 1) := rfl
    rw [expand, createLoopAux_step_503 resp jit 0 4 e0,
      show createLoopAux resp jit 1 4 = createLoopAux resp jit 1 (3 + 1) from rfl,
      createLoopAux_step_503 resp jit 1 3 e1,
      show createLoopAux resp jit 2 3 = createLoopAux resp jit 2 (2 + 1) from rfl,
      createLoopAux_step_503 resp jit 2 2 e2,
      show createLoopAux resp jit 3 2 = createLoopAux resp jit 3 (1 + 1) from rfl,
      createLoopAux_step_503 resp jit 3 1 e3,
      show createLoopAux resp jit 4 1 = createLoopAux resp jit 4 (0 + 1) from rfl,
      createLoopAux_step_503 resp jit 4 0 e4]
    simp [createDelay, createMaxRetries, createLoopAux]
  · intro h0 hc
    have expand : create_app_post resp jit = createLoopAux resp jit 0 (4 + 1) := rfl
    rw [expand, createLoopAux_step_err resp jit 0 4 code none h0 hc]

/-- C6 (witness): a backend that answers 503 four times then succeeds, with
zero jitter, makes the create call succeed after five requests with the
capped exponential delays 10, 20, 40, 60. -/
theorem create_retry_policy_witness :
    create_app_post
        (fun i => if i < 4 then HttpResp.err 503 none else HttpResp.ok "created")
        (fun _ => 0)
      = ⟨Except.ok "created", createMaxRetries,
          [min (createBaseDelay * 2 ^ 0 + 0) createMaxDelay,
           min (createBaseDelay * 2 ^ 1 + 0) createMaxDelay,
           min (createBaseDelay * 2 ^ 2 + 0) createMaxDelay,
           min (createBaseDelay * 2 ^ 3 + 0) createMaxDelay]⟩ :=
  (create_retry_policy
      (fun i => if i < 4 then HttpResp.err 503 none else HttpResp.ok "created")
      (fun _ => 0) "created" 0).1
    (fun i hi => by
      have h4 : i < 4 := by simpa [createMaxRetries] using hi
      simp [h4])
    (by norm_num [createMaxRetries])

theorem filter_length_map (f : AppRecord → AppRecord) (p : AppRecord → Bool) :
    ∀ st : List AppRecord, (∀ b ∈ st, p (f b) = p b) →
    ((st.map f).filter p).length = (st.filter p).length := by
  intro st
  induction st with
  | nil => intro _; rfl
  | cons b bs ih =>
    intro hp
    have hb := hp b (List.mem_cons_self b bs)
    have ihb := ih (fun x hx => hp x (List.mem_cons_of_mem b hx))
    simp only [List.map_cons, List.filter_cons, hb]
    cases hpb : p b <;> simp [hpb, ihb]

/-- C7 (counterexample to the claim as stated): with `updateExisting` set
and a matching existing record, a backend that rejects the in-place PATCH
makes `create_app` fall through to the create POST, so a new record is
created and the backend ends with two records. -/
theorem create_app_flow_counterexample :
    (create_app_flow true true false [⟨1, "X", "1.0"⟩] ⟨"X", "2.0"⟩ 2).createdNew = true
    ∧ (create_app_flow true true false [⟨1, "X", "1.0"⟩] ⟨"X", "2.0"⟩ 2).state.length = 2 := by
  decide

/-- C7 (amended): when `create_app` runs with `updateExisting` set, the
lookup succeeds with at least one record matching the display name, and the
in-place PATCH succeeds, the pre-existing record object is returned, no new
record is created, and the record count and the matching-record count are
unchanged; consequently two such sequential calls with identical metadata
create nothing and leave the record count (and matching count) unchanged.
If the PATCH fails, however, the code falls back to creating a new record. -/
theorem create_app_update_in_place (st : List AppRecord) (info : AppInfo)
    (a : AppRecord) (rest : List AppRecord) (newId₁ newId₂ : Nat)
    (hnodup : (st.map (fun r => r.id)).Nodup)
    (hmatch : st.filter (fun r => r.displayName = info.name) = a :: rest) :
    (create_app_flow true true true st info newId₁).returned = a
    ∧ (create_app_flow true true true st info newId₁).createdNew = false
    ∧ (create_app_flow true true true st info newId₁).state.length = st.length
    ∧ ((create_app_flow true true true st info newId₁).state.filter
        (fun r => r.displayName = info.name)).length
      = (st.filter (fun r => r.displayName = info.name)).length
    ∧ (create_app_flow true true true
        (create_app_flow true true true st info newId₁).state info newId₂).createdNew = false
    ∧ (create_app_flow true true true
        (create_app_flow true true true st info newId₁).state info newId₂).state.length
      = st.length := by
  set p : AppRecord → Bool := fun r => r.displayName = info.name with hp_def
  set pf : AppRecord → AppRecord :=
    fun b => if b.id = a.id then patchRecord info b else b with hpf_def
  have hflow : create_app_flow true true true st info newId₁
      = ⟨st.map pf, a, false⟩ := by
    simp [create_app_flow, hmatch, hpf_def]
  have ha_filter : a ∈ st.filter p := by
    rw [hmatch]; exact List.mem_cons_self a rest
  have ha_mem : a ∈ st := List.mem_of_mem_filter ha_filter
  have ha_p : p a = true := List.of_mem_filter ha_filter
  have hid_inj : ∀ x ∈ st, ∀ y ∈ st, x.id = y.id → x = y := by
    intro x hx y hy hxy
    exact List.inj_on_of_nodup_map hnodup hx hy hxy
  have hpres : ∀ b ∈ st, p (pf b) = p b := by
    intro b hb
    by_cases hid : b.id = a.id
    · have hba : b = a := hid_inj b hb a ha_mem hid
      subst hba
      simp only [hpf_def, if_pos hid, hp_def, patchRecord]
      simp only [hp_def] at ha_p
      rw [ha_p]
      simp
    · simp [hpf_def, hid]
  have hcount : ((st.map pf).filter p).length = (st.filter p).length :=
    filter_length_map pf p st hpres
  have hcount_pos : 0 < ((st.map pf).filter p).length := by
    rw [hcount, hmatch]
    simp
  obtain ⟨a₂, rest₂, hmatch₂⟩ :
      ∃ a₂ rest₂, (st.map pf).filter p = a₂ :: rest₂ := by
    rcases hfe : (st.map pf).filter p with _ | ⟨x, xs⟩
    · rw [hfe] at hcount_pos; simp at hcount_pos
    · exact ⟨x, xs, rfl⟩
  have hflow₂ : create_app_flow true true true (st.map pf) info newId₂
      = ⟨(st.map pf).map
          (fun b => if b.id = a₂.id then patchRecord info b else b), a₂, false⟩ := by
    simp [create_app_flow, hmatch₂]
  refine ⟨?_, ?_, ?_, ?_, ?_, ?_⟩
  · rw [hflow]
  · rw [hflow]
  · rw [hflow]; simp
  · rw [hflow]; exact hcount
  · rw [hflow, hflow₂]
  · rw [hflow, hflow₂]; simp

/-- C7 (witness): one existing matching record, two sequential successful
update calls: the existing record is returned, nothing is created, and the
backend keeps exactly one record. -/
theorem create_app_update_in_place_witness :
    (create_app_flow true true true [⟨1, "X", "1.0"⟩] ⟨"X", "2.0"⟩ 2).returned
      = (⟨1, "X", "1.0"⟩ : AppRecord)
    ∧ (create_app_flow true true true [⟨1, "X", "1.0"⟩] ⟨"X", "2.0"⟩ 2).createdNew = false
    ∧ (create_app_flow true true true [⟨1, "X", "1.0"⟩] ⟨"X", "2.0"⟩ 2).state.length = 1
    ∧ ((create_app_flow true true true [⟨1, "X", "1.0"⟩] ⟨"X", "2.0"⟩ 2).state.filter
        (fun r => r.displayName = "X")).length = 1
    ∧ (create_app_flow true true true
        (create_app_flow true true true [⟨1, "X", "1.0"⟩] ⟨"X", "2.0"⟩ 2).state
        ⟨"X", "2.0"⟩ 3).createdNew = false
    ∧ (create_app_flow true true true
        (create_app_flow true true true [⟨1, "X", "1.0"⟩] ⟨"X", "2.0"⟩ 2).state
        ⟨"X", "2.0"⟩ 3).state.length = 1 := by
  have h := create_app_update_in_place [⟨1, "X", "1.0"⟩] ⟨"X", "2.0"⟩
    ⟨1, "X", "1.0"⟩ [] 2 3 (by decide) (by decide)
  exact ⟨h.1, h.2.1, h.2.2.1, by rw [h.2.2.2.1]; decide, h.2.2.2.2.1, h.2.2.2.2.2⟩

/-- C8: the code slip behind the claim — `app_upload.py` never defines
`logger`, so every logo outcome except a missing logo file makes
`add_app_logo` raise `NameError` (even the handler of line 483 raises),
and `finalize_upload` wraps that exception into a pipeline failure,
contradicting the documented best-effort behavior. -/
theorem add_app_logo_nameerror :
    add_app_logo LogoCase.patchAccepted = Except.error "NameError"
    ∧ add_app_logo LogoCase.patchRejected = Except.error "NameError"
    ∧ add_app_logo LogoCase.readFailure = Except.error "NameError"
    ∧ add_app_logo LogoCase.missingLogoFile = Except.ok ()
    ∧ finalizeLogoStep LogoCase.patchAccepted
      = Except.error ("Error finalizing upload: " ++ "NameError")
    ∧ finalizeLogoStep LogoCase.missingLogoFile = Except.ok true := by
  refine ⟨rfl, rfl, rfl, rfl, rfl, rfl⟩

/-- C9 (counterexample to the claim as stated): after a pipeline run on
`app.pkg` — successful or not — the encrypted sibling `app.pkg.bin` is
still present in the filesystem state; it was not deleted before the
pipeline returned. -/
theorem pipeline_artifact_counterexample :
    "app.pkg.bin" ∈ pipelineFs ["app.pkg"] "app.pkg" true
    ∧ "app.pkg.bin" ∈ pipelineFs ["app.pkg"] "app.pkg" false := by
  decide

/-- C9 (amended): the pipeline never deletes the locally created encrypted
artifact: on every exit path the encrypted sibling `path + ".bin"` is
present when the pipeline returns, and the pipeline's only filesystem
change is adding that one file (no plaintext temp copy is ever created and
nothing is ever removed). -/
theorem pipeline_artifact_persists (fs : List String) (path : String)
    (outcome : Bool) :
    (path ++ ".bin") ∈ pipelineFs fs path outcome
    ∧ pipelineFs fs path outcome = addPath fs (path ++ ".bin") := by
  constructor
  · unfold pipelineFs uploadFileFs encryptFileFs addPath
    by_cases h : (path ++ ".bin") ∈ fs
    · simp [h]
    · simp [h]
  · rfl

end AppUpload
